import Mathlib

/-!
Verification development for the seller-apis repository
(`src/seller.py` and `src/market.py`).

The core under study is the feed-reconciliation and batching pipeline:
`create_stocks`, `create_prices`, `price_conversion`, `divide`, and the
batch sizes used by the upload/main orchestrators.  Feed rows are modelled
as records of strings (the source coerces the spreadsheet cells with
`str(...)` before use); Python's fallible `int(...)` conversion is
modelled as an `Option`-returning parser, so functions that can raise
`ValueError` return `Option`.
-/

set_option autoImplicit false

namespace SellerApis

/-- One row of the supplier feed (`watch_remnants` entry).  The source
reads the columns «Код», «Количество», «Цена» and coerces the first two
with `str(...)` at every use, so all three are strings here. -/
structure FeedRecord where
  code : String
  quantity : String
  price : String
deriving DecidableEq, Repr

/-- Decimal value of a list of ASCII digit characters. -/
def digitsVal (l : List Char) : Nat :=
  l.foldl (fun a c => 10 * a + (c.toNat - 48)) 0

/-- Model of Python's `int(s)` on a character list: an optional sign
followed by a nonempty run of ASCII digits; anything else raises
`ValueError`, modelled as `none`. -/
def pyIntList (l : List Char) : Option Int :=
  match l with
  | [] => none
  | c :: rest =>
    if c = '-' then
      if rest ≠ [] ∧ rest.all Char.isDigit then some (-(digitsVal rest : Int)) else none
    else if c = '+' then
      if rest ≠ [] ∧ rest.all Char.isDigit then some ((digitsVal rest : Int)) else none
    else if (c :: rest).all Char.isDigit then some ((digitsVal (c :: rest) : Int)) else none

/-- Model of Python's `int(s)` for a string. -/
def pyInt (s : String) : Option Int :=
  pyIntList s.toList

/-- Embedding of Python's `price.split(".")[0]`: the characters before
the first `'.'` (the whole list when there is none). -/
def beforeDot : List Char → List Char
  | [] => []
  | c :: cs => if c = '.' then [] else c :: beforeDot cs

/-- `price_conversion` (`seller.py` lines 271-292):
`re.sub("[^0-9]", "", price.split(".")[0])` — keep only the ASCII digits
of the part before the first decimal point. -/
def price_conversion (price : String) : String :=
  String.mk ((beforeDot price.toList).filter Char.isDigit)

/-- The spec's description of the price normalizer: take the substring
of the input before the first `'.'` (all of it when there is no `'.'`)
and delete every character that is not an ASCII digit. -/
def price_conversion_spec (price : String) : String :=
  String.mk ((price.toList.takeWhile (fun c => c ≠ '.')).filter Char.isDigit)

/-- The quantity rule shared by `seller.py` lines 227-233 and `market.py`
lines 196-202: `">10"` maps to 100, the exact string `"1"` maps to 0,
and anything else goes through Python's `int(...)`. -/
def toStock (count : String) : Option Int :=
  if count = ">10" then some 100
  else if count = "1" then some 0
  else pyInt count

/-- A feed whose every record has a quantity the stock rule accepts
(no `ValueError` during `create_stocks`). -/
def QuantitiesOk (watch_remnants : List FeedRecord) : Prop :=
  ∀ w ∈ watch_remnants, (toStock w.quantity).isSome

instance : DecidablePred QuantitiesOk := fun ws =>
  inferInstanceAs (Decidable (∀ w ∈ ws, (toStock w.quantity).isSome))

namespace Seller

/-- A stock update for the Ozon target: `{"offer_id": ..., "stock": ...}`. -/
structure StockUpdate where
  offer_id : String
  stock : Int
deriving DecidableEq, Repr

/-- A price update for the Ozon target (`seller.py` lines 260-266). -/
structure PriceUpdate where
  auto_action_enabled : String
  currency_code : String
  offer_id : String
  old_price : String
  price : String
deriving DecidableEq, Repr

/-- The first loop of `create_stocks` (`seller.py` lines 225-235): walk
the feed; when a record's code is in the current `offer_ids` list, emit
a stock update with the converted quantity and remove that code from the
list (`offer_ids.remove`, i.e. erase the first occurrence).  Returns the
emitted updates together with the final state of `offer_ids`; `none`
models the `ValueError` raised by `int(...)` on a bad quantity. -/
def create_stocks_go : List FeedRecord → List String →
    Option (List StockUpdate × List String)
  | [], ids => some ([], ids)
  | w :: ws, ids =>
    if w.code ∈ ids then
      match toStock w.quantity with
      | none => none
      | some st =>
        match create_stocks_go ws (ids.erase w.code) with
        | none => none
        | some (rest, ids') => some (⟨w.code, st⟩ :: rest, ids')
    else create_stocks_go ws ids

/-- `create_stocks` (`seller.py` lines 201-239).  The second component of
the result is the final state of the caller's `offer_ids` list: the
source mutates its argument in place, which we model by returning the
mutated list alongside the stock updates.  The zero-fill loop (lines
237-238) appends a `stock = 0` update for every surviving offer id. -/
def create_stocks (watch_remnants : List FeedRecord) (offer_ids : List String) :
    Option (List StockUpdate × List String) :=
  match create_stocks_go watch_remnants offer_ids with
  | none => none
  | some (stocks, remaining) =>
    some (stocks ++ remaining.map (fun oid => ⟨oid, 0⟩), remaining)

/-- `create_prices` (`seller.py` lines 242-268): one price update per
feed record whose code is in `offer_ids` (the list is not mutated here);
the `price` field is the raw `price_conversion` output, a string. -/
def create_prices (watch_remnants : List FeedRecord) (offer_ids : List String) :
    List PriceUpdate :=
  match watch_remnants with
  | [] => []
  | w :: ws =>
    if w.code ∈ offer_ids then
      ⟨"UNKNOWN", "RUB", w.code, "0", price_conversion w.price⟩ :: create_prices ws offer_ids
    else create_prices ws offer_ids

end Seller

namespace Market

/-- One element of the `items` array of a Yandex Market stock update
(`market.py` lines 207-213). -/
structure StockItem where
  count : Int
  type : String
  updatedAt : String
deriving DecidableEq, Repr

/-- A stock update for the Yandex Market target (`market.py` lines 203-215). -/
structure StockUpdate where
  sku : String
  warehouseId : String
  items : List StockItem
deriving DecidableEq, Repr

/-- The `price` object of a Yandex Market price update. -/
structure PriceValue where
  value : Int
  currencyId : String
deriving DecidableEq, Repr

/-- A price update for the Yandex Market target (`market.py` lines 253-264). -/
structure PriceUpdate where
  id : String
  price : PriceValue
deriving DecidableEq, Repr

/-- The first loop of `market.py`'s `create_stocks` (lines 194-216);
`date` is the timestamp the source takes from `datetime.datetime.utcnow()`
at the top of the function, modelled as an explicit parameter. -/
def create_stocks_go (warehouse_id date : String) : List FeedRecord → List String →
    Option (List StockUpdate × List String)
  | [], ids => some ([], ids)
  | w :: ws, ids =>
    if w.code ∈ ids then
      match toStock w.quantity with
      | none => none
      | some st =>
        match create_stocks_go warehouse_id date ws (ids.erase w.code) with
        | none => none
        | some (rest, ids') =>
          some (⟨w.code, warehouse_id, [⟨st, "FIT", date⟩]⟩ :: rest, ids')
    else create_stocks_go warehouse_id date ws ids

/-- `create_stocks` (`market.py` lines 168-232), with the ambient clock
passed explicitly as `date`.  As in the Ozon version, the mutated
`offer_ids` list is returned as the second component. -/
def create_stocks (watch_remnants : List FeedRecord) (offer_ids : List String)
    (warehouse_id date : String) : Option (List StockUpdate × List String) :=
  match create_stocks_go warehouse_id date watch_remnants offer_ids with
  | none => none
  | some (stocks, remaining) =>
    some (stocks ++ remaining.map (fun oid => ⟨oid, warehouse_id, [⟨0, "FIT", date⟩]⟩),
      remaining)

/-- `create_prices` (`market.py` lines 235-266): one price update per
feed record whose code is in `offer_ids`; the value is
`int(price_conversion(...))`, whose `ValueError` is modelled as `none`. -/
def create_prices (watch_remnants : List FeedRecord) (offer_ids : List String) :
    Option (List PriceUpdate) :=
  match watch_remnants with
  | [] => some []
  | w :: ws =>
    if w.code ∈ offer_ids then
      match pyInt (price_conversion w.price) with
      | none => none
      | some v =>
        match create_prices ws offer_ids with
        | none => none
        | some rest => some (⟨w.code, ⟨v, "RUR"⟩⟩ :: rest)
    else create_prices ws offer_ids

end Market

/-- The chunking loop of `divide` (`seller.py` line 307-308) for a
positive step `n`: `lst[i : i + n]` for `i = 0, n, 2n, ...`. -/
def chunk {α : Type} (n : Nat) (lst : List α) : List (List α) :=
  if h : lst.length = 0 ∨ n = 0 then []
  else lst.take n :: chunk n (lst.drop n)
termination_by lst.length
decreasing_by
  push_neg at h
  simp only [List.length_drop]
  omega

/-- `divide` (`seller.py` lines 295-308).  `range(0, len(lst), n)`
raises `ValueError` when `n = 0` (modelled as `none`), is empty when
`n < 0` (the generator silently yields nothing), and steps by `n`
otherwise. -/
def divide {α : Type} (lst : List α) (n : Int) : Option (List (List α)) :=
  if n = 0 then none
  else if n < 0 then some []
  else some (chunk n.toNat lst)

/-- The batches submitted by `upload_stocks` in `seller.py` (line 342):
`list(divide(stocks, 100))`. -/
def Seller.upload_stocks_batches (stocks : List Seller.StockUpdate) :
    Option (List (List Seller.StockUpdate)) :=
  divide stocks 100

/-- The batches submitted by `upload_prices` in `seller.py` (line 324):
`list(divide(prices, 1000))`. -/
def Seller.upload_prices_batches (prices : List Seller.PriceUpdate) :
    Option (List (List Seller.PriceUpdate)) :=
  divide prices 1000

/-- The stock batches submitted by `main` in `seller.py` (line 357):
`list(divide(stocks, 100))`. -/
def Seller.main_stock_batches (stocks : List Seller.StockUpdate) :
    Option (List (List Seller.StockUpdate)) :=
  divide stocks 100

/-- The price batches submitted by `main` in `seller.py` (line 361):
`list(divide(prices, 900))`. -/
def Seller.main_price_batches (prices : List Seller.PriceUpdate) :
    Option (List (List Seller.PriceUpdate)) :=
  divide prices 900

/-- The batches submitted by `upload_stocks` in `market.py` (line 301):
`list(divide(stocks, 2000))`; `main` uses the same constant (lines 323, 332). -/
def Market.upload_stocks_batches (stocks : List Market.StockUpdate) :
    Option (List (List Market.StockUpdate)) :=
  divide stocks 2000

/-- The batches submitted by `upload_prices` in `market.py` (line 282):
`list(divide(prices, 500))`. -/
def Market.upload_prices_batches (prices : List Market.PriceUpdate) :
    Option (List (List Market.PriceUpdate)) :=
  divide prices 500

/-- Repackage an Ozon stock update as a Yandex Market one: the two
`create_stocks` loops differ only in this payload shape. -/
def ofSellerStock (warehouse_id date : String) (u : Seller.StockUpdate) :
    Market.StockUpdate :=
  ⟨u.offer_id, warehouse_id, [⟨u.stock, "FIT", date⟩]⟩

/-- Erase the timestamps of a Yandex Market stock update, for comparing
the outputs of two runs made at different clock times. -/
def Market.stripDate (u : Market.StockUpdate) : Market.StockUpdate :=
  ⟨u.sku, u.warehouseId, u.items.map (fun it => ⟨it.count, it.type, ""⟩)⟩

/-! ### Lemmas about `chunk` and `divide` -/

theorem chunk_nil {α : Type} (n : Nat) : chunk n ([] : List α) = [] := by
  rw [chunk]
  simp

theorem chunk_cons {α : Type} {n : Nat} (hn : n ≠ 0) {lst : List α} (hl : lst ≠ []) :
    chunk n lst = lst.take n :: chunk n (lst.drop n) := by
  rw [chunk]
  rw [dif_neg]
  push_neg
  exact ⟨fun h => hl (List.length_eq_zero.mp h), hn⟩

theorem chunk_ne_nil {α : Type} {n : Nat} (hn : n ≠ 0) {lst : List α} (hl : lst ≠ []) :
    chunk n lst ≠ [] := by
  rw [chunk_cons hn hl]
  simp

theorem chunk_flatten {α : Type} {n : Nat} (hn : n ≠ 0) :
    ∀ lst : List α, (chunk n lst).flatten = lst := by
  intro lst
  induction lst using chunk.induct n with
  | case1 x hx =>
    rcases hx with hx | hx
    · rw [List.length_eq_zero.mp hx, chunk_nil]
      rfl
    · exact absurd hx hn
  | case2 x hx ih =>
    push_neg at hx
    rw [chunk_cons hn (fun h => hx.1 (by simp [h]))]
    rw [List.flatten_cons, ih, List.take_append_drop]

theorem chunk_mem_length_le {α : Type} {n : Nat} (hn : n ≠ 0) :
    ∀ lst : List α, ∀ c ∈ chunk n lst, c.length ≤ n := by
  intro lst
  induction lst using chunk.induct n with
  | case1 x hx =>
    rcases hx with hx | hx
    · rw [List.length_eq_zero.mp hx, chunk_nil]
      intro c hc
      cases hc
    · exact absurd hx hn
  | case2 x hx ih =>
    push_neg at hx
    rw [chunk_cons hn (fun h => hx.1 (by simp [h]))]
    intro c hc
    rcases List.mem_cons.mp hc with rfl | hc
    · simp [List.length_take]
    · exact ih c hc

theorem chunk_dropLast {α : Type} {n : Nat} (hn : n ≠ 0) :
    ∀ lst : List α, ∀ c ∈ (chunk n lst).dropLast, c.length = n := by
  intro lst
  induction lst using chunk.induct n with
  | case1 x hx =>
    rcases hx with hx | hx
    · rw [List.length_eq_zero.mp hx, chunk_nil]
      intro c hc
      cases hc
    · exact absurd hx hn
  | case2 x hx ih =>
    push_neg at hx
    have hxne : x ≠ [] := fun h => hx.1 (by simp [h])
    rw [chunk_cons hn hxne]
    by_cases hd : x.drop n = []
    · rw [hd, chunk_nil, List.dropLast_single]
      intro c hc
      cases hc
    · obtain ⟨b, L, hbl⟩ := List.exists_cons_of_ne_nil (chunk_ne_nil hn hd)
      rw [hbl, List.dropLast_cons₂]
      intro c hc
      rcases List.mem_cons.mp hc with rfl | hc
      · have hlen : n < x.length := by
          have hpos : 0 < (x.drop n).length := List.length_pos.mpr hd
          rw [List.length_drop] at hpos
          omega
        simp [List.length_take]
        omega
      · exact ih c (by rw [hbl]; exact hc)

theorem chunk_getLast {α : Type} {n : Nat} (hn : n ≠ 0) :
    ∀ lst : List α, lst ≠ [] →
      ∃ c, (chunk n lst).getLast? = some c ∧ 1 ≤ c.length ∧ c.length ≤ n := by
  intro lst
  induction lst using chunk.induct n with
  | case1 x hx =>
    intro hne
    rcases hx with hx | hx
    · exact absurd (List.length_eq_zero.mp hx) hne
    · exact absurd hx hn
  | case2 x hx ih =>
    intro hne
    push_neg at hx
    rw [chunk_cons hn hne]
    by_cases hd : x.drop n = []
    · rw [hd, chunk_nil]
      refine ⟨x.take n, by simp, ?_, by simp [List.length_take]⟩
      have hpos : 0 < x.length := List.length_pos.mpr hne
      simp [List.length_take]
      omega
    · obtain ⟨c, hc1, hc2, hc3⟩ := ih hd
      obtain ⟨b, L, hbl⟩ := List.exists_cons_of_ne_nil (chunk_ne_nil hn hd)
      refine ⟨c, ?_, hc2, hc3⟩
      rw [hbl, List.getLast?_cons_cons, ← hbl]
      exact hc1

theorem chunk_length_eq {α : Type} {n : Nat} (hn : n ≠ 0) :
    ∀ lst : List α, (chunk n lst).length = (lst.length + n - 1) / n := by
  intro lst
  induction lst using chunk.induct n with
  | case1 x hx =>
    rcases hx with hx | hx
    · rw [List.length_eq_zero.mp hx, chunk_nil]
      have : (n - 1) / n = 0 := Nat.div_eq_of_lt (by omega)
      simpa using this.symm
    · exact absurd hx hn
  | case2 x hx ih =>
    push_neg at hx
    have hxne : x ≠ [] := fun h => hx.1 (by simp [h])
    have hxpos : 0 < x.length := List.length_pos.mpr hxne
    rw [chunk_cons hn hxne]
    simp only [List.length_cons, ih, List.length_drop]
    by_cases hcase : x.length ≤ n
    · have h0 : x.length - n = 0 := by omega
      rw [h0]
      have h1 : (0 + n - 1) / n = 0 := Nat.div_eq_of_lt (by omega)
      have h2 : (x.length + n - 1) / n = 1 :=
        Nat.div_eq_of_lt_le (by omega) (by omega)
      rw [h1, h2]
    · have e2 : x.length + n - 1 = (x.length - 1) + n := by omega
      rw [e2, Nat.add_div_right _ (Nat.pos_of_ne_zero hn)]
      have e1 : x.length - n + n - 1 = x.length - 1 := by omega
      rw [e1]

/-- Master specification of `divide` for a positive chunk size. -/
theorem divide_spec {α : Type} (lst : List α) (n : Int) (hn : 0 < n) :
    ∃ cs, divide lst n = some cs ∧ cs.flatten = lst ∧
      (∀ c ∈ cs, c.length ≤ n.toNat) ∧
      (∀ c ∈ cs.dropLast, c.length = n.toNat) ∧
      (lst ≠ [] → ∃ c, cs.getLast? = some c ∧ 1 ≤ c.length ∧ c.length ≤ n.toNat) ∧
      cs.length = (lst.length + n.toNat - 1) / n.toNat := by
  have hne : n ≠ 0 := by omega
  have hnlt : ¬ n < 0 := by omega
  have htn : n.toNat ≠ 0 := by omega
  exact ⟨chunk n.toNat lst, by simp [divide, hne, hnlt], chunk_flatten htn lst,
    chunk_mem_length_le htn lst, chunk_dropLast htn lst, chunk_getLast htn lst,
    chunk_length_eq htn lst⟩

/-! ### Lemmas about the Ozon reconciler (`seller.py`) -/

namespace Seller

theorem create_stocks_go_cons_inv {w : FeedRecord} {ws : List FeedRecord}
    {ids : List String} {st : List StockUpdate} {rem : List String}
    (h : create_stocks_go (w :: ws) ids = some (st, rem)) :
    (w.code ∈ ids ∧ ∃ v rest, toStock w.quantity = some v ∧
      create_stocks_go ws (ids.erase w.code) = some (rest, rem) ∧
      st = ⟨w.code, v⟩ :: rest)
    ∨ (w.code ∉ ids ∧ create_stocks_go ws ids = some (st, rem)) := by
  by_cases hmem : w.code ∈ ids
  · left
    refine ⟨hmem, ?_⟩
    rw [create_stocks_go, if_pos hmem] at h
    cases hts : toStock w.quantity with
    | none => rw [hts] at h; cases h
    | some v =>
      rw [hts] at h
      cases hgo : create_stocks_go ws (ids.erase w.code) with
      | none => rw [hgo] at h; cases h
      | some pr =>
        obtain ⟨rest, ids'⟩ := pr
        rw [hgo] at h
        simp only [Option.some.injEq, Prod.mk.injEq] at h
        obtain ⟨h1, h2⟩ := h
        subst h2
        exact ⟨v, rest, rfl, rfl, h1.symm⟩
  · right
    rw [create_stocks_go, if_neg hmem] at h
    exact ⟨hmem, h⟩

theorem create_stocks_go_total :
    ∀ (ws : List FeedRecord), (∀ w ∈ ws, (toStock w.quantity).isSome) →
      ∀ ids, ∃ st rem, create_stocks_go ws ids = some (st, rem) := by
  intro ws
  induction ws with
  | nil => exact fun _ ids => ⟨[], ids, rfl⟩
  | cons w ws ih =>
    intro hq ids
    obtain ⟨v, hv⟩ := Option.isSome_iff_exists.mp (hq w (List.mem_cons_self w ws))
    have hq' : ∀ w' ∈ ws, (toStock w'.quantity).isSome :=
      fun w' hw' => hq w' (List.mem_cons_of_mem _ hw')
    by_cases hmem : w.code ∈ ids
    · obtain ⟨rest, ids', hgo⟩ := ih hq' (ids.erase w.code)
      exact ⟨⟨w.code, v⟩ :: rest, ids', by simp [create_stocks_go, hmem, hv, hgo]⟩
    · obtain ⟨st, rem, hgo⟩ := ih hq' ids
      exact ⟨st, rem, by simp [create_stocks_go, hmem, hgo]⟩

theorem create_stocks_go_perm :
    ∀ (ws : List FeedRecord) (ids : List String) (st : List StockUpdate)
      (rem : List String), create_stocks_go ws ids = some (st, rem) →
      (st.map StockUpdate.offer_id ++ rem).Perm ids := by
  intro ws
  induction ws with
  | nil =>
    intro ids st rem h
    simp only [create_stocks_go, Option.some.injEq, Prod.mk.injEq] at h
    rw [← h.1, ← h.2]
    simp
  | cons w ws ih =>
    intro ids st rem h
    rcases create_stocks_go_cons_inv h with ⟨hmem, v, rest, _, hgo, rfl⟩ | ⟨_, hgo⟩
    · have hrec := ih (ids.erase w.code) rest rem hgo
      exact (hrec.cons w.code).trans (List.perm_cons_erase hmem).symm
    · exact ih ids st rem hgo

theorem create_stocks_go_emit :
    ∀ (ws : List FeedRecord) (ids : List String) (st : List StockUpdate)
      (rem : List String), create_stocks_go ws ids = some (st, rem) →
      ∀ u ∈ st, ∃ w ∈ ws, w.code = u.offer_id ∧ toStock w.quantity = some u.stock := by
  intro ws
  induction ws with
  | nil =>
    intro ids st rem h
    simp only [create_stocks_go, Option.some.injEq, Prod.mk.injEq] at h
    rw [← h.1]
    intro u hu
    cases hu
  | cons w ws ih =>
    intro ids st rem h u hu
    rcases create_stocks_go_cons_inv h with ⟨_, v, rest, hts, hgo, rfl⟩ | ⟨_, hgo⟩
    · rcases List.mem_cons.mp hu with rfl | hu
      · exact ⟨w, List.mem_cons_self w ws, rfl, hts⟩
      · obtain ⟨w', hw', hcode, hst⟩ := ih _ rest rem hgo u hu
        exact ⟨w', List.mem_cons_of_mem _ hw', hcode, hst⟩
    · obtain ⟨w', hw', hcode, hst⟩ := ih ids st rem hgo u hu
      exact ⟨w', List.mem_cons_of_mem _ hw', hcode, hst⟩

theorem create_stocks_go_rem_mem :
    ∀ (ws : List FeedRecord) (ids : List String) (st : List StockUpdate)
      (rem : List String), create_stocks_go ws ids = some (st, rem) →
      ∀ oid ∈ ids, (∀ w ∈ ws, w.code ≠ oid) → oid ∈ rem := by
  intro ws
  induction ws with
  | nil =>
    intro ids st rem h oid hoid _
    simp only [create_stocks_go, Option.some.injEq, Prod.mk.injEq] at h
    rw [← h.2]
    exact hoid
  | cons w ws ih =>
    intro ids st rem h oid hoid hne
    have hwne : w.code ≠ oid := hne w (List.mem_cons_self w ws)
    have hne' : ∀ w' ∈ ws, w'.code ≠ oid :=
      fun w' hw' => hne w' (List.mem_cons_of_mem _ hw')
    rcases create_stocks_go_cons_inv h with ⟨_, v, rest, _, hgo, rfl⟩ | ⟨_, hgo⟩
    · exact ih _ rest rem hgo oid
        ((List.mem_erase_of_ne (fun he => hwne he.symm)).mpr hoid) hne'
    · exact ih ids st rem hgo oid hoid hne'

theorem create_stocks_go_rem_eq :
    ∀ (ws : List FeedRecord) (ids : List String) (st : List StockUpdate)
      (rem : List String), ids.Nodup → create_stocks_go ws ids = some (st, rem) →
      rem = ids.filter (fun oid => decide (∀ w ∈ ws, w.code ≠ oid)) := by
  intro ws
  induction ws with
  | nil =>
    intro ids st rem _ h
    simp only [create_stocks_go, Option.some.injEq, Prod.mk.injEq] at h
    rw [← h.2]
    simp
  | cons w ws ih =>
    intro ids st rem hnd h
    rcases create_stocks_go_cons_inv h with ⟨_, v, rest, _, hgo, rfl⟩ | ⟨hmem, hgo⟩
    · have hrec := ih _ rest rem (hnd.erase _) hgo
      rw [hrec, List.Nodup.erase_eq_filter hnd, List.filter_filter]
      apply List.filter_congr
      intro x _
      by_cases hxw : w.code = x
      · simp [hxw]
      · by_cases hP : ∀ w' ∈ ws, w'.code ≠ x
        · simp [hxw, hP, Ne.symm hxw]
        · simp [hxw, hP]
    · have hrec := ih ids st rem hnd hgo
      rw [hrec]
      apply List.filter_congr
      intro x hx
      have hwx : w.code ≠ x := fun he => hmem (he ▸ hx)
      simp [hwx]

/-- `create_stocks` succeeds exactly when `create_stocks_go` does, with
the zero-fill appended. -/
theorem create_stocks_eq {F : List FeedRecord} {C : List String}
    {st₀ : List StockUpdate} {rem : List String}
    (h : create_stocks_go F C = some (st₀, rem)) :
    create_stocks F C = some (st₀ ++ rem.map (fun oid => ⟨oid, 0⟩), rem) := by
  rw [create_stocks, h]

/-- The offer ids of the full `create_stocks` output are a permutation of
the catalog. -/
theorem create_stocks_offer_perm {F : List FeedRecord} {C : List String}
    {st : List StockUpdate} {rem : List String}
    (h : create_stocks F C = some (st, rem)) :
    (st.map StockUpdate.offer_id).Perm C := by
  rw [create_stocks] at h
  cases hgo : create_stocks_go F C with
  | none => rw [hgo] at h; cases h
  | some pr =>
    obtain ⟨st₀, rem₀⟩ := pr
    rw [hgo] at h
    simp only [Option.some.injEq, Prod.mk.injEq] at h
    have hperm := create_stocks_go_perm F C st₀ rem₀ hgo
    rw [← h.1, List.map_append, List.map_map]
    have hmap : (StockUpdate.offer_id ∘ fun oid => (⟨oid, 0⟩ : StockUpdate)) = id := rfl
    rw [hmap, List.map_id]
    exact hperm

/-- Every price update emitted by the Ozon `create_prices` comes from a
feed record whose code is in `offer_ids`, and carries the raw
`price_conversion` output as its `price` string. -/
theorem create_prices_mem :
    ∀ (F : List FeedRecord) (C : List String) (p : PriceUpdate),
      p ∈ create_prices F C →
      ∃ w ∈ F, w.code = p.offer_id ∧ w.code ∈ C ∧ p.price = price_conversion w.price := by
  intro F
  induction F with
  | nil => intro C p hp; cases hp
  | cons w ws ih =>
    intro C p hp
    by_cases hmem : w.code ∈ C
    · rw [create_prices, if_pos hmem] at hp
      rcases List.mem_cons.mp hp with rfl | hp
      · exact ⟨w, List.mem_cons_self w ws, rfl, hmem, rfl⟩
      · obtain ⟨w', hw', h1, h2, h3⟩ := ih C p hp
        exact ⟨w', List.mem_cons_of_mem _ hw', h1, h2, h3⟩
    · rw [create_prices, if_neg hmem] at hp
      obtain ⟨w', hw', h1, h2, h3⟩ := ih C p hp
      exact ⟨w', List.mem_cons_of_mem _ hw', h1, h2, h3⟩

/-- Every feed record whose code is in `offer_ids` produces a price
update in the Ozon `create_prices` output — even when the converted
price is the empty string. -/
theorem create_prices_emit :
    ∀ (F : List FeedRecord) (C : List String), ∀ w ∈ F, w.code ∈ C →
      ∃ p ∈ create_prices F C, p.offer_id = w.code ∧ p.price = price_conversion w.price := by
  intro F
  induction F with
  | nil => intro C w hw; cases hw
  | cons w' ws ih =>
    intro C w hw hmem
    rcases List.mem_cons.mp hw with rfl | hw
    · rw [create_prices, if_pos hmem]
      exact ⟨⟨"UNKNOWN", "RUB", w.code, "0", price_conversion w.price⟩,
        List.mem_cons_self _ _, rfl, rfl⟩
    · by_cases hmem' : w'.code ∈ C
      · rw [create_prices, if_pos hmem']
        obtain ⟨p, hp, h1, h2⟩ := ih C w hw hmem
        exact ⟨p, List.mem_cons_of_mem _ hp, h1, h2⟩
      · rw [create_prices, if_neg hmem']
        exact ih C w hw hmem

/-- When no feed record's code lies in `offer_ids`, the Ozon
`create_prices` output is empty. -/
theorem create_prices_eq_nil :
    ∀ (F : List FeedRecord) (C : List String), (∀ w ∈ F, w.code ∉ C) →
      create_prices F C = [] := by
  intro F
  induction F with
  | nil => intro C _; rfl
  | cons w ws ih =>
    intro C h
    rw [create_prices, if_neg (h w (List.mem_cons_self w ws))]
    exact ih C (fun w' hw' => h w' (List.mem_cons_of_mem _ hw'))

end Seller

/-! ### Lemmas about the Yandex Market reconciler (`market.py`) -/

namespace Market

/-- The Yandex Market stock loop is the Ozon stock loop with a different
payload shape. -/
theorem create_stocks_go_eq (wid d : String) :
    ∀ (ws : List FeedRecord) (ids : List String),
      create_stocks_go wid d ws ids =
        (Seller.create_stocks_go ws ids).map
          (fun p => (p.1.map (ofSellerStock wid d), p.2)) := by
  intro ws
  induction ws with
  | nil => intro ids; rfl
  | cons w ws ih =>
    intro ids
    by_cases hmem : w.code ∈ ids
    · rw [create_stocks_go, Seller.create_stocks_go, if_pos hmem, if_pos hmem]
      cases toStock w.quantity with
      | none => rfl
      | some v =>
        rw [ih]
        cases Seller.create_stocks_go ws (ids.erase w.code) with
        | none => rfl
        | some pr => obtain ⟨rest, ids'⟩ := pr; rfl
    · rw [create_stocks_go, Seller.create_stocks_go, if_neg hmem, if_neg hmem]
      exact ih ids

/-- `market.py`'s `create_stocks` is `seller.py`'s with each update
repackaged by `ofSellerStock`. -/
theorem create_stocks_eq_seller (wid d : String) (F : List FeedRecord)
    (C : List String) :
    create_stocks F C wid d =
      (Seller.create_stocks F C).map
        (fun p => (p.1.map (ofSellerStock wid d), p.2)) := by
  rw [create_stocks, Seller.create_stocks, create_stocks_go_eq wid d]
  cases Seller.create_stocks_go F C with
  | none => rfl
  | some pr =>
    obtain ⟨st₀, rem⟩ := pr
    simp [Option.map_some', List.map_append, List.map_map]
    exact fun a _ => rfl

theorem create_prices_cons_inv {w : FeedRecord} {ws : List FeedRecord}
    {C : List String} {res : List PriceUpdate}
    (h : create_prices (w :: ws) C = some res) :
    (w.code ∈ C ∧ ∃ v rest, pyInt (price_conversion w.price) = some v ∧
      create_prices ws C = some rest ∧ res = ⟨w.code, ⟨v, "RUR"⟩⟩ :: rest)
    ∨ (w.code ∉ C ∧ create_prices ws C = some res) := by
  by_cases hmem : w.code ∈ C
  · left
    refine ⟨hmem, ?_⟩
    rw [create_prices, if_pos hmem] at h
    cases hv : pyInt (price_conversion w.price) with
    | none => rw [hv] at h; cases h
    | some v =>
      rw [hv] at h
      cases hrec : create_prices ws C with
      | none => rw [hrec] at h; cases h
      | some rest =>
        rw [hrec] at h
        simp only [Option.some.injEq] at h
        exact ⟨v, rest, rfl, rfl, h.symm⟩
  · right
    rw [create_prices, if_neg hmem] at h
    exact ⟨hmem, h⟩

/-- Every price update emitted by the Yandex Market `create_prices`
comes from a feed record whose code is in `offer_ids`, with the
converted price parsed as an integer. -/
theorem create_prices_mem_value :
    ∀ (F : List FeedRecord) (C : List String) (res : List PriceUpdate),
      create_prices F C = some res → ∀ p ∈ res,
      ∃ w ∈ F, w.code = p.id ∧ w.code ∈ C ∧
        pyInt (price_conversion w.price) = some p.price.value := by
  intro F
  induction F with
  | nil =>
    intro C res h p hp
    simp only [create_prices, Option.some.injEq] at h
    rw [← h] at hp
    cases hp
  | cons w ws ih =>
    intro C res h p hp
    rcases create_prices_cons_inv h with ⟨hmem, v, rest, hv, hrec, rfl⟩ | ⟨_, hrec⟩
    · rcases List.mem_cons.mp hp with rfl | hp
      · exact ⟨w, List.mem_cons_self w ws, rfl, hmem, hv⟩
      · obtain ⟨w', hw', h1, h2, h3⟩ := ih C rest hrec p hp
        exact ⟨w', List.mem_cons_of_mem _ hw', h1, h2, h3⟩
    · obtain ⟨w', hw', h1, h2, h3⟩ := ih C res hrec p hp
      exact ⟨w', List.mem_cons_of_mem _ hw', h1, h2, h3⟩

/-- If some feed record's code is in `offer_ids` and its converted price
is the empty string, the Yandex Market `create_prices` raises
(`int("")` is a `ValueError`), i.e. returns `none`. -/
theorem create_prices_fail :
    ∀ (F : List FeedRecord) (C : List String), ∀ w ∈ F, w.code ∈ C →
      price_conversion w.price = "" → create_prices F C = none := by
  intro F
  induction F with
  | nil => intro C w hw; cases hw
  | cons w' ws ih =>
    intro C w hw hmem hconv
    rcases List.mem_cons.mp hw with rfl | hw
    · rw [create_prices, if_pos hmem]
      have hnone : pyInt (price_conversion w.price) = none := by rw [hconv]; rfl
      rw [hnone]
    · by_cases hmem' : w'.code ∈ C
      · rw [create_prices, if_pos hmem']
        rw [ih C w hw hmem hconv]
        cases pyInt (price_conversion w'.price) <;> rfl
      · rw [create_prices, if_neg hmem']
        exact ih C w hw hmem hconv

end Market

/-! ### Lemmas about `pyInt` and `toStock` -/

theorem pyIntList_digits {l : List Char} (hne : l ≠ []) (hd : l.all Char.isDigit) :
    pyIntList l = some ((digitsVal l : Int)) := by
  cases l with
  | nil => exact absurd rfl hne
  | cons c rest =>
    have hc : c.isDigit := by
      simp only [List.all_cons, Bool.and_eq_true] at hd
      exact hd.1
    have hcm : c ≠ '-' := fun he => absurd (he ▸ hc) (by decide)
    have hcp : c ≠ '+' := fun he => absurd (he ▸ hc) (by decide)
    rw [pyIntList, if_neg hcm, if_neg hcp, if_pos hd]

theorem string_mk_all_digits_ne {l : List Char} (hd : l.all Char.isDigit) :
    String.mk l ≠ ">10" := by
  intro he
  have h2 : l = ['>', '1', '0'] := by
    have := congrArg String.data he
    simpa using this
  rw [h2] at hd
  exact absurd hd (by decide)

/-- The stock rule on a literal digit string other than `"1"` yields its
numeric value. -/
theorem toStock_digits {l : List Char} (hne : l ≠ []) (hd : l.all Char.isDigit)
    (h1 : String.mk l ≠ "1") :
    toStock (String.mk l) = some ((digitsVal l : Int)) := by
  rw [toStock, if_neg (string_mk_all_digits_ne hd), if_neg h1]
  exact pyIntList_digits hne hd

/-! ### Lemmas about `price_conversion` -/

theorem beforeDot_eq_takeWhile :
    ∀ l : List Char, beforeDot l = l.takeWhile (fun c => c ≠ '.') := by
  intro l
  induction l with
  | nil => rfl
  | cons c cs ih =>
    rw [beforeDot]
    by_cases hc : c = '.'
    · rw [if_pos hc]
      simp [List.takeWhile_cons, hc]
    · rw [if_neg hc]
      simp [List.takeWhile_cons, hc, ih]

theorem beforeDot_subset : ∀ (l : List Char), ∀ c ∈ beforeDot l, c ∈ l := by
  intro l
  induction l with
  | nil => intro c hc; cases hc
  | cons a as ih =>
    intro c hc
    rw [beforeDot] at hc
    by_cases ha : a = '.'
    · rw [if_pos ha] at hc; cases hc
    · rw [if_neg ha] at hc
      rcases List.mem_cons.mp hc with rfl | hc
      · exact List.mem_cons_self _ _
      · exact List.mem_cons_of_mem _ (ih c hc)

/-- `seller.py` inversion of `create_stocks`: the output is the matched
part followed by the zero-fills over the surviving offer ids. -/
theorem Seller.create_stocks_inv {F : List FeedRecord} {C : List String}
    {st : List Seller.StockUpdate} {rem : List String}
    (h : Seller.create_stocks F C = some (st, rem)) :
    ∃ st₀, Seller.create_stocks_go F C = some (st₀, rem) ∧
      st = st₀ ++ rem.map (fun oid => ⟨oid, 0⟩) := by
  rw [Seller.create_stocks] at h
  cases hgo : Seller.create_stocks_go F C with
  | none => rw [hgo] at h; cases h
  | some pr =>
    obtain ⟨st₀, rem₀⟩ := pr
    rw [hgo] at h
    simp only [Option.some.injEq, Prod.mk.injEq] at h
    obtain ⟨h1, h2⟩ := h
    subst h2
    exact ⟨st₀, rfl, h1.symm⟩

theorem stripDate_ofSellerStock (wid d : String) (u : Seller.StockUpdate) :
    Market.stripDate (ofSellerStock wid d u) = ofSellerStock wid "" u := rfl

/-! ### The claims -/

/-- Claim C1: for every duplicate-free catalog `C` and every feed `F`
whose quantities the stock rule accepts, `create_stocks` (both targets)
returns exactly one stock update per member of `C`: the result has
length `|C|`, every member of `C` is the offer id of exactly one update,
and no other offer ids occur. -/
theorem claim1_one_update_per_catalog_member (F : List FeedRecord) (C : List String)
    (hnd : C.Nodup) (hq : QuantitiesOk F) :
    ∃ stocks rem, Seller.create_stocks F C = some (stocks, rem) ∧
      stocks.length = C.length ∧
      (∀ oid ∈ C, (stocks.map Seller.StockUpdate.offer_id).count oid = 1) ∧
      (∀ oid, oid ∉ C → (stocks.map Seller.StockUpdate.offer_id).count oid = 0) ∧
      (∀ wid d, ∃ mstocks mrem,
        Market.create_stocks F C wid d = some (mstocks, mrem) ∧
        mstocks.length = C.length ∧
        (∀ oid ∈ C, (mstocks.map Market.StockUpdate.sku).count oid = 1) ∧
        (∀ oid, oid ∉ C → (mstocks.map Market.StockUpdate.sku).count oid = 0)) := by
  obtain ⟨st₀, rem, hgo⟩ := Seller.create_stocks_go_total F hq C
  have hcs := Seller.create_stocks_eq hgo
  have hperm : ((st₀ ++ rem.map (fun oid => (⟨oid, 0⟩ : Seller.StockUpdate))).map
      Seller.StockUpdate.offer_id).Perm C := Seller.create_stocks_offer_perm hcs
  have hlen : (st₀ ++ rem.map (fun oid => (⟨oid, 0⟩ : Seller.StockUpdate))).length
      = C.length := by
    have := hperm.length_eq
    simpa using this
  have hcount1 : ∀ oid ∈ C,
      ((st₀ ++ rem.map (fun oid => (⟨oid, 0⟩ : Seller.StockUpdate))).map
        Seller.StockUpdate.offer_id).count oid = 1 := by
    intro oid ho
    rw [hperm.count_eq]
    exact List.count_eq_one_of_mem hnd ho
  have hcount0 : ∀ oid, oid ∉ C →
      ((st₀ ++ rem.map (fun oid => (⟨oid, 0⟩ : Seller.StockUpdate))).map
        Seller.StockUpdate.offer_id).count oid = 0 := by
    intro oid ho
    rw [hperm.count_eq]
    exact List.count_eq_zero.mpr ho
  refine ⟨_, rem, hcs, hlen, hcount1, hcount0, ?_⟩
  intro wid d
  refine ⟨(st₀ ++ rem.map (fun oid => (⟨oid, 0⟩ : Seller.StockUpdate))).map
    (ofSellerStock wid d), rem, ?_, by simpa using hlen, ?_, ?_⟩
  · rw [Market.create_stocks_eq_seller, hcs]
    rfl
  · intro oid ho
    have hm : ((st₀ ++ rem.map (fun oid => (⟨oid, 0⟩ : Seller.StockUpdate))).map
        (ofSellerStock wid d)).map Market.StockUpdate.sku
        = (st₀ ++ rem.map (fun oid => (⟨oid, 0⟩ : Seller.StockUpdate))).map
          Seller.StockUpdate.offer_id := by
      rw [List.map_map]
      rfl
    rw [hm]
    exact hcount1 oid ho
  · intro oid ho
    have hm : ((st₀ ++ rem.map (fun oid => (⟨oid, 0⟩ : Seller.StockUpdate))).map
        (ofSellerStock wid d)).map Market.StockUpdate.sku
        = (st₀ ++ rem.map (fun oid => (⟨oid, 0⟩ : Seller.StockUpdate))).map
          Seller.StockUpdate.offer_id := by
      rw [List.map_map]
      rfl
    rw [hm]
    exact hcount0 oid ho

/-- Witness for C1 at a concrete feed and catalog. -/
theorem claim1_one_update_per_catalog_member_witness :
    ∃ stocks rem,
      Seller.create_stocks [⟨"A", ">10", "100.00"⟩] ["A", "B"] = some (stocks, rem) ∧
      stocks.length = (["A", "B"] : List String).length ∧
      (∀ oid ∈ (["A", "B"] : List String),
        (stocks.map Seller.StockUpdate.offer_id).count oid = 1) ∧
      (∀ oid, oid ∉ (["A", "B"] : List String) →
        (stocks.map Seller.StockUpdate.offer_id).count oid = 0) ∧
      (∀ wid d, ∃ mstocks mrem,
        Market.create_stocks [⟨"A", ">10", "100.00"⟩] ["A", "B"] wid d
          = some (mstocks, mrem) ∧
        mstocks.length = (["A", "B"] : List String).length ∧
        (∀ oid ∈ (["A", "B"] : List String),
          (mstocks.map Market.StockUpdate.sku).count oid = 1) ∧
        (∀ oid, oid ∉ (["A", "B"] : List String) →
          (mstocks.map Market.StockUpdate.sku).count oid = 0)) :=
  claim1_one_update_per_catalog_member [⟨"A", ">10", "100.00"⟩] ["A", "B"]
    (by decide) (by decide)

/-- Claim C2 counterexample: a feed record whose quantity is the literal
integer string `"1"` and whose code is in the catalog produces a stock
update with quantity 0, not 1 — the claim predicts quantity 1 for every
literal integer string including `"1"`. -/
theorem claim2_counterexample :
    Seller.create_stocks [⟨"A", "1", "100.00"⟩] ["A"]
        = some ([⟨"A", 0⟩], []) ∧
      Seller.create_stocks [⟨"A", "1", "100.00"⟩] ["A"]
        ≠ some ([⟨"A", 1⟩], []) := by
  decide

/-- Claim C2 (amended): for a matched feed record the emitted quantity is
100 for the token `">10"`, 0 for the exact string `"1"` (which the code
treats as the withheld-one token, shadowing the literal-integer case),
and N for any other literal digit string `"N"`; every non-zero-fill
update of `create_stocks` carries `toStock` of the matching record's
quantity string. -/
theorem claim2_amended :
    toStock ">10" = some 100 ∧ toStock "1" = some 0 ∧
    (∀ l : List Char, l ≠ [] → l.all Char.isDigit → String.mk l ≠ "1" →
      toStock (String.mk l) = some ((digitsVal l : Int))) ∧
    (∀ (F : List FeedRecord) (C : List String) (st : List Seller.StockUpdate)
      (rem : List String), Seller.create_stocks F C = some (st, rem) →
      ∀ u ∈ st,
        (∃ w ∈ F, w.code = u.offer_id ∧ toStock w.quantity = some u.stock) ∨
        u.stock = 0) := by
  refine ⟨by decide, by decide,
    fun l h1 h2 h3 => toStock_digits h1 h2 h3, ?_⟩
  intro F C st rem h u hu
  obtain ⟨st₀, hgo, rfl⟩ := Seller.create_stocks_inv h
  rcases List.mem_append.mp hu with hu | hu
  · exact Or.inl (Seller.create_stocks_go_emit F C st₀ rem hgo u hu)
  · obtain ⟨oid, _, rfl⟩ := List.mem_map.mp hu
    exact Or.inr rfl

/-- Witness for the amended C2 at a concrete digit string and run. -/
theorem claim2_amended_witness :
    toStock (String.mk ['4', '2']) = some ((digitsVal ['4', '2'] : Int)) ∧
    ((∃ w ∈ ([⟨"A", "5", "p"⟩] : List FeedRecord), w.code
        = (⟨"A", 5⟩ : Seller.StockUpdate).offer_id ∧
        toStock w.quantity = some (⟨"A", 5⟩ : Seller.StockUpdate).stock) ∨
      (⟨"A", 5⟩ : Seller.StockUpdate).stock = 0) :=
  ⟨claim2_amended.2.2.1 ['4', '2'] (by decide) (by decide) (by decide),
    claim2_amended.2.2.2 [⟨"A", "5", "p"⟩] ["A"] [⟨"A", 5⟩] []
      (by decide) ⟨"A", 5⟩ (by decide)⟩

/-- Claim C3: an offer id in the catalog matched by no feed record gets a
zero-quantity stock update from `create_stocks`, and neither target's
`create_prices` output contains an entry for it. -/
theorem claim3_unmatched_offer_zero_stock_no_price (F : List FeedRecord)
    (C : List String) (oid : String) (hmem : oid ∈ C)
    (hnof : ∀ w ∈ F, w.code ≠ oid) (hq : QuantitiesOk F) :
    (∃ st rem, Seller.create_stocks F C = some (st, rem) ∧
      (⟨oid, 0⟩ : Seller.StockUpdate) ∈ st) ∧
    (∀ p ∈ Seller.create_prices F C, p.offer_id ≠ oid) ∧
    (∀ res, Market.create_prices F C = some res → ∀ p ∈ res, p.id ≠ oid) := by
  refine ⟨?_, ?_, ?_⟩
  · obtain ⟨st₀, rem, hgo⟩ := Seller.create_stocks_go_total F hq C
    have hrem : oid ∈ rem :=
      Seller.create_stocks_go_rem_mem F C st₀ rem hgo oid hmem hnof
    exact ⟨_, rem, Seller.create_stocks_eq hgo,
      List.mem_append_right _ (List.mem_map.mpr ⟨oid, hrem, rfl⟩)⟩
  · intro p hp
    obtain ⟨w, hw, hcode, _, _⟩ := Seller.create_prices_mem F C p hp
    exact fun he => hnof w hw (hcode.trans he)
  · intro res hres p hp
    obtain ⟨w, hw, hcode, _, _⟩ := Market.create_prices_mem_value F C res hres p hp
    exact fun he => hnof w hw (hcode.trans he)

/-- Witness for C3 at a concrete feed, catalog and offer id. -/
theorem claim3_unmatched_offer_zero_stock_no_price_witness :
    (∃ st rem,
      Seller.create_stocks [⟨"A", "3", "5.00"⟩] ["A", "B"] = some (st, rem) ∧
      (⟨"B", 0⟩ : Seller.StockUpdate) ∈ st) ∧
    (∀ p ∈ Seller.create_prices [⟨"A", "3", "5.00"⟩] ["A", "B"],
      p.offer_id ≠ "B") ∧
    (∀ res, Market.create_prices [⟨"A", "3", "5.00"⟩] ["A", "B"] = some res →
      ∀ p ∈ res, p.id ≠ "B") :=
  claim3_unmatched_offer_zero_stock_no_price [⟨"A", "3", "5.00"⟩] ["A", "B"] "B"
    (by decide) (by decide) (by decide)

/-- Claim C4 counterexample: with the duplicate catalog list
`["A", "A"]` and one feed record for `"A"`, the mutated list after
`create_stocks` is `["A"]` — not the original with every feed-matched
code removed, which would be `[]` — and `create_prices` on that leftover
list emits a price update for the feed-matched offer `"A"`. -/
theorem claim4_counterexample :
    Seller.create_stocks [⟨"A", "5", "100.00"⟩] ["A", "A"]
        = some ([⟨"A", 5⟩, ⟨"A", 0⟩], ["A"]) ∧
      Seller.create_prices [⟨"A", "5", "100.00"⟩] ["A"]
        = [⟨"UNKNOWN", "RUB", "A", "0", "100"⟩] := by
  decide

/-- Claim C4 (amended): when the offer-id list has no duplicates, after
`create_stocks` the caller's list equals the original filtered to the
codes no feed record matches (survivors in original order), and
`create_prices` on that leftover list emits nothing at all. -/
theorem claim4_amended (F : List FeedRecord) (C : List String) (hnd : C.Nodup)
    (hq : QuantitiesOk F) :
    ∃ st, Seller.create_stocks F C
        = some (st, C.filter (fun oid => decide (∀ w ∈ F, w.code ≠ oid))) ∧
      Seller.create_prices F (C.filter (fun oid => decide (∀ w ∈ F, w.code ≠ oid)))
        = [] := by
  obtain ⟨st₀, rem, hgo⟩ := Seller.create_stocks_go_total F hq C
  have hrem := Seller.create_stocks_go_rem_eq F C st₀ rem hnd hgo
  refine ⟨st₀ ++ rem.map (fun oid => ⟨oid, 0⟩), ?_, ?_⟩
  · rw [← hrem]
    exact Seller.create_stocks_eq hgo
  · rw [← hrem]
    apply Seller.create_prices_eq_nil
    intro w hw hin
    rw [hrem] at hin
    exact of_decide_eq_true (List.mem_filter.mp hin).2 w hw rfl

/-- Witness for the amended C4 at a concrete feed and catalog. -/
theorem claim4_amended_witness :
    ∃ st, Seller.create_stocks [⟨"A", "5", "p"⟩] ["A", "B"]
        = some (st, (["A", "B"] : List String).filter
          (fun oid => decide (∀ w ∈ ([⟨"A", "5", "p"⟩] : List FeedRecord),
            w.code ≠ oid))) ∧
      Seller.create_prices [⟨"A", "5", "p"⟩]
          ((["A", "B"] : List String).filter
            (fun oid => decide (∀ w ∈ ([⟨"A", "5", "p"⟩] : List FeedRecord),
              w.code ≠ oid)))
        = [] :=
  claim4_amended [⟨"A", "5", "p"⟩] ["A", "B"] (by decide) (by decide)

/-- Claim C5 counterexample: in `seller.py` a matched feed record whose
price contains no digits is emitted with the empty string as its price —
the run does not fail, and the empty amount is silently submitted. -/
theorem claim5_counterexample :
    Seller.create_prices [⟨"A", "5", "руб."⟩] ["A"]
      = [⟨"UNKNOWN", "RUB", "A", "0", ""⟩] := by
  decide

/-- Claim C5 (amended): in `market.py` every emitted price update's value
is `int(price_conversion(...))` of a matching feed record, and an empty
normalization result makes the run fail; in `seller.py` every matched
record yields a price update whose `price` field is the raw
`price_conversion` string — the empty string included, emitted without
failing. -/
theorem claim5_amended :
    (∀ (F : List FeedRecord) (C : List String) (res : List Market.PriceUpdate),
      Market.create_prices F C = some res → ∀ p ∈ res,
      ∃ w ∈ F, w.code = p.id ∧
        pyInt (price_conversion w.price) = some p.price.value) ∧
    (∀ (F : List FeedRecord) (C : List String), ∀ w ∈ F, w.code ∈ C →
      price_conversion w.price = "" → Market.create_prices F C = none) ∧
    (∀ (F : List FeedRecord) (C : List String), ∀ w ∈ F, w.code ∈ C →
      ∃ p ∈ Seller.create_prices F C, p.offer_id = w.code ∧
        p.price = price_conversion w.price) := by
  refine ⟨?_, Market.create_prices_fail, Seller.create_prices_emit⟩
  intro F C res h p hp
  obtain ⟨w, hw, h1, _, h3⟩ := Market.create_prices_mem_value F C res h p hp
  exact ⟨w, hw, h1, h3⟩

/-- Witness for the amended C5: a digit-free price makes the Yandex
Market run fail, and yields a silent empty-price entry on Ozon. -/
theorem claim5_amended_witness :
    Market.create_prices [⟨"A", "5", "руб."⟩] ["A"] = none ∧
    (∃ p ∈ Seller.create_prices [⟨"A", "5", "руб."⟩] ["A"],
      p.offer_id = (⟨"A", "5", "руб."⟩ : FeedRecord).code ∧
      p.price = price_conversion (⟨"A", "5", "руб."⟩ : FeedRecord).price) :=
  ⟨claim5_amended.2.1 [⟨"A", "5", "руб."⟩] ["A"] ⟨"A", "5", "руб."⟩
      (by decide) (by decide) (by decide),
    claim5_amended.2.2 [⟨"A", "5", "руб."⟩] ["A"] ⟨"A", "5", "руб."⟩
      (by decide) (by decide)⟩

/-- Claim C6: `price_conversion` computes exactly the spec's algorithm —
keep the part before the first `'.'`, delete every non-ASCII-digit —
with the spec's two examples. -/
theorem claim6_price_conversion_matches_spec :
    (∀ s : String, price_conversion s = price_conversion_spec s) ∧
    price_conversion "19'990.00 руб." = "19990" ∧
    (∀ s : String, (∀ c ∈ s.toList, ¬ c.isDigit) → price_conversion s = "") := by
  refine ⟨?_, by decide, ?_⟩
  · intro s
    rw [price_conversion, price_conversion_spec, beforeDot_eq_takeWhile]
  · intro s h
    rw [price_conversion]
    have hnil : (beforeDot s.toList).filter Char.isDigit = [] :=
      List.filter_eq_nil_iff.mpr (fun c hc => h c (beforeDot_subset s.toList c hc))
    rw [hnil]

/-- Witness for C6 at a digit-free string. -/
theorem claim6_price_conversion_matches_spec_witness :
    price_conversion "руб." = "" ∧
    price_conversion "19'990.00 руб." = price_conversion_spec "19'990.00 руб." :=
  ⟨claim6_price_conversion_matches_spec.2.2 "руб." (by decide),
    claim6_price_conversion_matches_spec.1 "19'990.00 руб."⟩

/-- Claim C7: for a positive batch size `n`, `divide` yields chunks whose
concatenation is the input, each of length exactly `n` except possibly
the last, whose length lies in `[1, n]`; the number of chunks is
`⌈|lst| / n⌉` (so 1050 elements at 500 give three chunks). -/
theorem claim7_divide_chunks (lst : List Nat) (n : Int) (hn : 0 < n) :
    ∃ cs, divide lst n = some cs ∧ cs.flatten = lst ∧
      (∀ c ∈ cs.dropLast, c.length = n.toNat) ∧
      (lst ≠ [] → ∃ c, cs.getLast? = some c ∧ 1 ≤ c.length ∧ c.length ≤ n.toNat) ∧
      cs.length = (lst.length + n.toNat - 1) / n.toNat := by
  obtain ⟨cs, h1, h2, _, h4, h5, h6⟩ := divide_spec lst n hn
  exact ⟨cs, h1, h2, h4, h5, h6⟩

/-- Witness for C7 at a concrete list and size. -/
theorem claim7_divide_chunks_witness :
    ∃ cs, divide ([1, 2, 3, 4, 5] : List Nat) 2 = some cs ∧
      cs.flatten = [1, 2, 3, 4, 5] ∧
      (∀ c ∈ cs.dropLast, c.length = (2 : Int).toNat) ∧
      (([1, 2, 3, 4, 5] : List Nat) ≠ [] →
        ∃ c, cs.getLast? = some c ∧ 1 ≤ c.length ∧ c.length ≤ (2 : Int).toNat) ∧
      cs.length = (([1, 2, 3, 4, 5] : List Nat).length + (2 : Int).toNat - 1)
        / (2 : Int).toNat :=
  claim7_divide_chunks [1, 2, 3, 4, 5] 2 (by decide)

/-- Claim C8: evaluation at the failing input.  The docstring of `divide`
promises `ValueError` for every `n <= 0`, and `n = 0` indeed raises
(modelled `none`), but a negative `n` makes `range(0, len(lst), n)` empty,
so the generator silently yields no chunks instead of failing. -/
theorem claim8_negative_n_silently_yields_nothing :
    divide ([1, 2, 3] : List Nat) (-1) = some [] ∧
    divide ([1, 2, 3] : List Nat) 0 = none := by
  decide

/-- Claim C9 counterexample: at 101 stock updates, `seller.py` submits
batches of sizes `[100, 1]` — its constant is 100, not the claimed 2000 —
while `market.py` submits one batch of 101 — its constant is 2000, not
the claimed 100.  The claim swaps the two targets' constants. -/
theorem claim9_counterexample :
    (Seller.upload_stocks_batches (List.replicate 101 ⟨"A", 0⟩)).map
        (List.map List.length) = some [100, 1] ∧
    (divide (List.replicate 101 (⟨"A", 0⟩ : Seller.StockUpdate)) 2000).map
        (List.map List.length) = some [101] ∧
    (Market.upload_stocks_batches (List.replicate 101 ⟨"A", "W", []⟩)).map
        (List.map List.length) = some [101] ∧
    (divide (List.replicate 101 (⟨"A", "W", []⟩ : Market.StockUpdate)) 100).map
        (List.map List.length) = some [100, 1] ∧
    ([100, 1] : List Nat) ≠ [101] := by
  refine ⟨?_, ?_, ?_, ?_, by decide⟩ <;>
    simp [Seller.upload_stocks_batches, Market.upload_stocks_batches, divide,
      chunk, List.replicate]

/-- Claim C9 (amended): the batch sizes actually used are — `seller.py`:
stocks 100 (in `upload_stocks` and `main`), prices 1000 in
`upload_prices` and 900 in `main`; `market.py`: stocks 2000, prices 500.
Every batching call chunks its list exactly at its constant. -/
theorem claim9_amended (s : List Seller.StockUpdate) (sp : List Seller.PriceUpdate)
    (ms : List Market.StockUpdate) (mp : List Market.PriceUpdate) :
    (∃ cs, Seller.upload_stocks_batches s = some cs ∧ cs.flatten = s ∧
      (∀ c ∈ cs, c.length ≤ 100) ∧ ∀ c ∈ cs.dropLast, c.length = 100) ∧
    (∃ cs, Seller.main_stock_batches s = some cs ∧ cs.flatten = s ∧
      (∀ c ∈ cs, c.length ≤ 100) ∧ ∀ c ∈ cs.dropLast, c.length = 100) ∧
    (∃ cs, Seller.upload_prices_batches sp = some cs ∧ cs.flatten = sp ∧
      (∀ c ∈ cs, c.length ≤ 1000) ∧ ∀ c ∈ cs.dropLast, c.length = 1000) ∧
    (∃ cs, Seller.main_price_batches sp = some cs ∧ cs.flatten = sp ∧
      (∀ c ∈ cs, c.length ≤ 900) ∧ ∀ c ∈ cs.dropLast, c.length = 900) ∧
    (∃ cs, Market.upload_stocks_batches ms = some cs ∧ cs.flatten = ms ∧
      (∀ c ∈ cs, c.length ≤ 2000) ∧ ∀ c ∈ cs.dropLast, c.length = 2000) ∧
    (∃ cs, Market.upload_prices_batches mp = some cs ∧ cs.flatten = mp ∧
      (∀ c ∈ cs, c.length ≤ 500) ∧ ∀ c ∈ cs.dropLast, c.length = 500) := by
  refine ⟨?_, ?_, ?_, ?_, ?_, ?_⟩
  · obtain ⟨cs, h1, h2, h3, h4, _, _⟩ := divide_spec s 100 (by decide)
    exact ⟨cs, h1, h2, h3, h4⟩
  · obtain ⟨cs, h1, h2, h3, h4, _, _⟩ := divide_spec s 100 (by decide)
    exact ⟨cs, h1, h2, h3, h4⟩
  · obtain ⟨cs, h1, h2, h3, h4, _, _⟩ := divide_spec sp 1000 (by decide)
    exact ⟨cs, h1, h2, h3, h4⟩
  · obtain ⟨cs, h1, h2, h3, h4, _, _⟩ := divide_spec sp 900 (by decide)
    exact ⟨cs, h1, h2, h3, h4⟩
  · obtain ⟨cs, h1, h2, h3, h4, _, _⟩ := divide_spec ms 2000 (by decide)
    exact ⟨cs, h1, h2, h3, h4⟩
  · obtain ⟨cs, h1, h2, h3, h4, _, _⟩ := divide_spec mp 500 (by decide)
    exact ⟨cs, h1, h2, h3, h4⟩

/-- Witness for the amended C9 at concrete lists. -/
theorem claim9_amended_witness :
    (∃ cs, Seller.upload_stocks_batches [⟨"A", 1⟩] = some cs ∧
      cs.flatten = [⟨"A", 1⟩] ∧
      (∀ c ∈ cs, c.length ≤ 100) ∧ ∀ c ∈ cs.dropLast, c.length = 100) ∧
    (∃ cs, Seller.main_stock_batches [⟨"A", 1⟩] = some cs ∧
      cs.flatten = [⟨"A", 1⟩] ∧
      (∀ c ∈ cs, c.length ≤ 100) ∧ ∀ c ∈ cs.dropLast, c.length = 100) ∧
    (∃ cs, Seller.upload_prices_batches [] = some cs ∧ cs.flatten = [] ∧
      (∀ c ∈ cs, c.length ≤ 1000) ∧ ∀ c ∈ cs.dropLast, c.length = 1000) ∧
    (∃ cs, Seller.main_price_batches [] = some cs ∧ cs.flatten = [] ∧
      (∀ c ∈ cs, c.length ≤ 900) ∧ ∀ c ∈ cs.dropLast, c.length = 900) ∧
    (∃ cs, Market.upload_stocks_batches [] = some cs ∧ cs.flatten = [] ∧
      (∀ c ∈ cs, c.length ≤ 2000) ∧ ∀ c ∈ cs.dropLast, c.length = 2000) ∧
    (∃ cs, Market.upload_prices_batches [] = some cs ∧ cs.flatten = [] ∧
      (∀ c ∈ cs, c.length ≤ 500) ∧ ∀ c ∈ cs.dropLast, c.length = 500) :=
  claim9_amended [⟨"A", 1⟩] [] [] []

/-- Claim C10 counterexample: `market.py`'s `create_stocks` stamps every
update with the current UTC time, so two runs on identical feed and
catalog made at different clock times produce different update sets —
the output does not depend only on the feed and the catalog. -/
theorem claim10_counterexample :
    Market.create_stocks [⟨"A", "5", "100.00"⟩] ["A"] "W" "2024-01-01T00:00:00Z"
      ≠ Market.create_stocks [⟨"A", "5", "100.00"⟩] ["A"] "W"
        "2024-01-02T00:00:00Z" := by
  decide

/-- Claim C10 (amended): reconciliation is deterministic given the clock:
the outputs are pure functions of feed, catalog and (for `market.py`
stock updates) the single timestamp taken at the start; two market runs
at different clock times agree exactly up to the `updatedAt` field. -/
theorem claim10_amended (F : List FeedRecord) (C : List String)
    (wid d₁ d₂ : String) :
    (Market.create_stocks F C wid d₁).map
        (fun p => (p.1.map Market.stripDate, p.2)) =
      (Market.create_stocks F C wid d₂).map
        (fun p => (p.1.map Market.stripDate, p.2)) := by
  rw [Market.create_stocks_eq_seller, Market.create_stocks_eq_seller]
  cases Seller.create_stocks F C with
  | none => rfl
  | some pr =>
    obtain ⟨st, rem⟩ := pr
    simp only [Option.map_some', Prod.mk.injEq, List.map_map]
    have hmap : List.map (Market.stripDate ∘ ofSellerStock wid d₁) st
        = List.map (Market.stripDate ∘ ofSellerStock wid d₂) st :=
      List.map_congr_left (fun a _ => rfl)
    rw [hmap]

/-- Witness for the amended C10 at concrete inputs. -/
theorem claim10_amended_witness :
    (Market.create_stocks [⟨"A", "5", "p"⟩] ["A"] "W" "T1").map
        (fun p => (p.1.map Market.stripDate, p.2)) =
      (Market.create_stocks [⟨"A", "5", "p"⟩] ["A"] "W" "T2").map
        (fun p => (p.1.map Market.stripDate, p.2)) :=
  claim10_amended [⟨"A", "5", "p"⟩] ["A"] "W" "T1" "T2"

end SellerApis
